import Mathlib

/-!
Verification development for the server-map graph-construction tool
(src/server-map.py).  The Python source is shallowly embedded below:

* the polymorphic node type `TreeElement` (base class plus the four
  subclasses `ApiElement`, `StreamElement`, `MongoCollection`,
  `KafkaTopic`) becomes an inductive value whose `variant` field records
  the Python class of the object; the parsed configuration fragment
  stored in `source` is modelled as an opaque string compared by value
  (Python compares the parsed config objects by value as well);
* Python dicts become ordered association lists with dict semantics
  (update-in-place on an existing key, append on a fresh key, iteration
  in insertion order);
* Python list/object mutation becomes explicit value passing;
* `re` calls on the literal patterns used by the program become
  executable string functions with the same semantics on those patterns.

All definitions are executable so that concrete runs of the embedded
code can be evaluated inside proofs.
-/

namespace ServerMap

/-- Python class of a node: the base class `TreeElement` or one of its four
subclasses.  `isinstance(other, type(self))` holds iff `self` is of the base
class (every node is an instance of it) or the two variants coincide. -/
inductive Variant : Type where
  | base
  | api
  | stream
  | mongo
  | kafka
deriving DecidableEq

/-- Embedding of the `TreeElement` object graph: `variant` is the Python
class of the object, the remaining fields are `name`, `nickname`, `source`,
`isVisible`, `inputs`, `outputs` exactly as set up by `TreeElement.__init__`
(src/server-map.py lines 126-133).  Subclass-only attributes (`buildNum`,
`groups`, `partitions`, `outputGroups`) are not read by any of the embedded
operations (`__eq__` explicitly "does not account for any subclass
attributes") and are omitted. -/
inductive TreeElement : Type where
  | mk (variant : Variant) (name nickname source : String) (isVisible : Bool)
       (inputs outputs : List TreeElement) : TreeElement

def TreeElement.variant : TreeElement → Variant
  | .mk v _ _ _ _ _ _ => v

def TreeElement.name : TreeElement → String
  | .mk _ n _ _ _ _ _ => n

def TreeElement.nickname : TreeElement → String
  | .mk _ _ nn _ _ _ _ => nn

def TreeElement.source : TreeElement → String
  | .mk _ _ _ s _ _ _ => s

def TreeElement.isVisible : TreeElement → Bool
  | .mk _ _ _ _ vis _ _ => vis

def TreeElement.inputs : TreeElement → List TreeElement
  | .mk _ _ _ _ _ ins _ => ins

def TreeElement.outputs : TreeElement → List TreeElement
  | .mk _ _ _ _ _ _ outs => outs

/-- Python `isinstance(other, type(self))` for the two-level class hierarchy
of the source: true iff `self` is a bare `TreeElement` (whose class is a
superclass of every variant) or `other` has exactly `self`'s class. -/
def isinstOf (other self : TreeElement) : Bool :=
  self.variant == .base || other.variant == self.variant

/-- Return value of Python `list.sort()`: the call sorts in place and
returns `None`.  `TreeElement.__eq__` compares these return values, so the
comparison below is always `None == None`. -/
def pySortRet (l : List String) : Option (List String) := none

/-- Embedding of `TreeElement.__eq__` (src/server-map.py lines 136-150).
The guard checks `isinstance(other, type(self))`, then the scalar fields and
the input/output counts; the final line of the Python method is
`sInputs.sort()==oInputs.sort() and sOutputs.sort()==oOutputs.sort()`,
which compares the `None` return values of `list.sort()` and is therefore
always `True` once reached. -/
def teEq (self other : TreeElement) : Bool :=
  isinstOf other self
    && self.name == other.name
    && self.source == other.source
    && self.isVisible == other.isVisible
    && self.inputs.length == other.inputs.length
    && self.outputs.length == other.outputs.length
    && pySortRet (self.inputs.map TreeElement.name)
         == pySortRet (other.inputs.map TreeElement.name)
    && pySortRet (self.outputs.map TreeElement.name)
         == pySortRet (other.outputs.map TreeElement.name)

/-- Python `x in l` for a list of `TreeElement`s: some member compares equal
to `x` (CPython evaluates `member == x` with the member as left operand;
the identity fast path is subsumed by value equality here). -/
def pyIn (l : List TreeElement) (x : TreeElement) : Bool :=
  l.any (fun m => teEq m x)

/-- One of the two loops of `TreeElement.merge` (src/server-map.py lines
188-195): append every element of `new` not already present (under `teEq`)
to `cur`, left to right, checking against the list as it grows. -/
def mergeList (cur new : List TreeElement) : List TreeElement :=
  new.foldl (fun acc e => if pyIn acc e then acc else acc ++ [e]) cur

/-- Embedding of `TreeElement.merge`: extend `self.inputs` with the missing
elements of `other.inputs`, likewise for outputs, and return `self`. -/
def TreeElement.merge : TreeElement → TreeElement → TreeElement
  | .mk v n nn s vis ins outs, other =>
      .mk v n nn s vis (mergeList ins other.inputs) (mergeList outs other.outputs)

mutual

/-- Embedding of `TreeElement.getInputs` (src/server-map.py lines 166-174):
keep each visible input, and replace each invisible input by its own
(recursively computed) visible inputs, flattened. -/
def getInputs : TreeElement → List TreeElement
  | .mk _ _ _ _ _ ins _ => visibleOfList ins

/-- The loop body of `getInputs` over the list of direct inputs. -/
def visibleOfList : List TreeElement → List TreeElement
  | [] => []
  | i :: rest => (if i.isVisible then [i] else getInputs i) ++ visibleOfList rest

end

mutual

/-- Embedding of `TreeElement.getOutputs` (src/server-map.py lines 177-185),
the mirror image of `getInputs` on the `outputs` list. -/
def getOutputs : TreeElement → List TreeElement
  | .mk _ _ _ _ _ _ outs => visibleOutOfList outs

/-- The loop body of `getOutputs` over the list of direct outputs. -/
def visibleOutOfList : List TreeElement → List TreeElement
  | [] => []
  | i :: rest => (if i.isVisible then [i] else getOutputs i) ++ visibleOutOfList rest

end

/-- Python dict as an ordered association list.  `dictSet d k v` is
`d.update({k : v})` / `d[k] = v`: if `k` is already a key its value is
replaced in place (iteration order kept), otherwise the pair is appended. -/
def dictSet {α : Type} (d : List (String × α)) (k : String) (v : α) :
    List (String × α) :=
  if d.any (fun p => p.1 == k) then
    d.map (fun p => if p.1 == k then (k, v) else p)
  else
    d ++ [(k, v)]

/-- Python `d[k]` respectively `k in d`, as an optional lookup. -/
def dictGet? {α : Type} (d : List (String × α)) (k : String) : Option α :=
  (d.find? (fun p => p.1 == k)).map Prod.snd

/-- Body of the neighbor loop in Step 2 of `main` (src/server-map.py lines
43-47): an input/output `n` of the current server is merged into the
registry entry with its nickname when one exists (the merge mutates that
existing entry in place), and inserted fresh otherwise. -/
def registerNeighbor (nodes : List (String × TreeElement)) (n : TreeElement) :
    List (String × TreeElement) :=
  match dictGet? nodes n.nickname with
  | some existing => dictSet nodes n.nickname (existing.merge n)
  | none => dictSet nodes n.nickname n

/-- Step 2 of `main` for one constructed root server (src/server-map.py
lines 41-47): the root itself is written into the registry with
`nodes.update({currentServer.nickname : currentServer})` — a plain dict
write — and then every element of `getInputs() + getOutputs()` goes through
the merge-on-insert neighbor loop. -/
def registerServer (nodes : List (String × TreeElement)) (s : TreeElement) :
    List (String × TreeElement) :=
  (getInputs s ++ getOutputs s).foldl registerNeighbor (dictSet nodes s.nickname s)

/-- Embedding of `TreeElement.__str__` (src/server-map.py lines 152-159):
the text `print` would display for a node. -/
def teStr (t : TreeElement) : String :=
  "Name: " ++ t.name ++ "\nNickname: " ++ t.nickname
    ++ "\nInputs: [" ++ String.intercalate ", " (t.inputs.map TreeElement.name)
    ++ "]\nOutputs: [" ++ String.intercalate ", " (t.outputs.map TreeElement.name)
    ++ "]\n"

/-- The JSON values the serialization step can emit. -/
inductive Json : Type where
  | null
  | str (s : String)
  | obj (fields : List (String × Json))

/-- Embedding of the `TreeElement` branch of `CustomJSONEncoder.default`
(src/server-map.py lines 89-90): the method executes `return print(obj)`.
`print` writes `str(obj)` to stdout and returns `None`, so the value handed
back to the JSON machinery is `None`, which serializes as JSON `null`. -/
def customJSONEncoderDefaultTE (t : TreeElement) : Json :=
  let _printed : String := teStr t
  Json.null

/-- Stable insertion of a pair into a key-sorted association list. -/
def insertSortedKey {α : Type} (p : String × α) :
    List (String × α) → List (String × α)
  | [] => [p]
  | q :: rest => if p.1 ≤ q.1 then p :: q :: rest else q :: insertSortedKey p rest

/-- Key-sorted copy of an association list, as `json.dumps(..., sort_keys=True)`
orders the members of the emitted object. -/
def sortByKey {α : Type} (d : List (String × α)) : List (String × α) :=
  d.foldr insertSortedKey []

/-- Embedding of Step 3 of `main` (src/server-map.py lines 50-53):
`json.dumps(nodes, sort_keys=True, cls=CustomJSONEncoder, indent=2)` encodes
the registry as a JSON object with key-sorted members whose values are
produced by `CustomJSONEncoder.default`. -/
def jsonDumpNodes (nodes : List (String × TreeElement)) : Json :=
  Json.obj ((sortByKey nodes).map (fun p => (p.1, customJSONEncoderDefaultTE p.2)))

/-- Replacement engine behind `re.sub(f, m, key)` for the literal (meta
character free) patterns the program configures (`_PKG`, `_SVC_PKG`,
`_CONF`, `_UNPACKER_CONF`): scan left to right, replace every
non-overlapping occurrence of `pat` by `rep`.  The fuel argument is the
length of the scanned text, enough for the scan to finish. -/
def replaceFuel (pat rep : List Char) : Nat → List Char → List Char
  | _, [] => []
  | 0, s => s
  | fuel + 1, c :: rest =>
      if pat ≠ [] && pat.isPrefixOf (c :: rest) then
        rep ++ replaceFuel pat rep fuel ((c :: rest).drop pat.length)
      else
        c :: replaceFuel pat rep fuel rest

/-- Python `re.sub(pat, rep, s)` on a literal pattern. -/
def reSubLit (pat rep s : String) : String :=
  String.mk (replaceFuel pat.data rep.data s.data.length s.data)

/-- Occurrence test behind `re.search(pat, s)` for a literal pattern:
does `pat` occur somewhere in `s`? -/
def hasSubLit (pat : List Char) : List Char → Bool
  | [] => pat.isEmpty
  | c :: rest => pat.isPrefixOf (c :: rest) || hasSubLit pat rest

/-- Python `bool(re.search(pat, s))` on a literal pattern. -/
def reSearchLit (pat s : String) : Bool :=
  hasSubLit pat.data s.data

/-- Embedding of `NamingScheme.__init__` (src/server-map.py lines 96-98):
`formats` is kept as the given list and `mutations` is
`dict(zip(formats, mutations))`, so a repeated format keeps only its last
pairing. -/
structure NamingScheme : Type where
  formats : List String
  mutations : List (String × String)

/-- Build a `NamingScheme` from the two keyword lists, as the constructor
does. -/
def mkScheme (formats muts : List String) : NamingScheme :=
  ⟨formats, (formats.zip muts).foldl (fun d p => dictSet d p.1 p.2) []⟩

/-- The group `matchKeys` builds for one requested key (src/server-map.py
lines 114-123): start from the dict `{key : source[key]}`; for every
configured format `f`, derive `mutKey = re.sub(f, mutations[f], key)` and
write `{s : source[s]}` into the group for every key `s` of `source` that
matches `mutKey`.  The group is a Python dict, so each write goes through
`dict.update`.  (`source[key]` and `mutations[f]` are modelled with a
default for the absent-key case, in which Python would raise `KeyError`;
every run examined below only looks them up at present keys.) -/
def NamingScheme.matchGroup (sch : NamingScheme)
    (source : List (String × String)) (key : String) : List (String × String) :=
  sch.formats.foldl
    (fun grp f =>
      let mutKey := reSubLit f ((dictGet? sch.mutations f).getD "") key
      source.foldl
        (fun grp2 p => if reSearchLit mutKey p.1 then dictSet grp2 p.1 p.2 else grp2)
        grp)
    [(key, (dictGet? source key).getD "")]

/-- Embedding of `NamingScheme.matchKeys`: one group per requested key. -/
def NamingScheme.matchKeys (sch : NamingScheme)
    (source : List (String × String)) (keys : List String) :
    List (List (String × String)) :=
  keys.map (sch.matchGroup source)

/-- Errors Python raises in the embedded fragments: `AttributeError` when a
method is called on `None`, `IndexError` when `match.group(i)` names a
group the pattern does not have. -/
inductive PyErr : Type where
  | attributeError
  | indexError
deriving DecidableEq

/-- A successful `re` match: the text of the whole match (group 0) together
with the list of capture-group values.  The pattern the program uses for
build numbers has no capture groups, so its matches carry an empty list. -/
structure ReMatch : Type where
  matched : String
  groups : List (Option String)
deriving DecidableEq

/-- Python `match.group(i)`: group 0 is the whole match; a positive index
selects a capture group and raises `IndexError` when the pattern defines no
such group. -/
def ReMatch.group (m : ReMatch) (i : Nat) : Except PyErr (Option String) :=
  if i = 0 then .ok (some m.matched)
  else
    match m.groups.get? (i - 1) with
    | some g => .ok g
    | none => .error .indexError

/-- Embedding of `re.search(r'v\d+$', value)` (src/server-map.py line 36):
the anchored pattern matches exactly when the value ends in a literal `v`
followed by one or more digits, and the match text is that trailing token.
The pattern contains no capture groups. -/
def searchVEnd (s : String) : Option ReMatch :=
  let rev := s.data.reverse
  let ds := rev.takeWhile (fun c => c.isDigit)
  if ds.isEmpty then none
  else
    match rev.drop ds.length with
    | c :: _ => if c = 'v' then some ⟨String.mk ('v' :: ds.reverse), []⟩ else none
    | [] => none

/-- Embedding of the build-number extraction in Step 2 of `main`:
`re.search(r'v\d+$', value).group(1)`.  When the search fails it returns
`None` and the `.group` call raises `AttributeError`; when it succeeds, the
pattern has no group 1 and `.group(1)` raises `IndexError`. -/
def buildNumOfValue (v : String) : Except PyErr (Option String) :=
  match searchVEnd v with
  | none => .error .attributeError
  | some m => m.group 1

/-- Node of the id-indexed graph model used for the termination analysis of
the visibility collapse: the Python object graph is cyclic by construction
(producer and topic point back at each other), which the inductive
`TreeElement` value cannot represent, so `getInputs` is re-read here over an
arena of nodes addressed by index, exactly as §9 of the design notes
describes the data.  Only the fields `getInputs` touches are kept. -/
structure GNode : Type where
  isVisible : Bool
  inputs : List Nat
deriving DecidableEq

/-- Node with index `i` of the arena (out-of-range indices never arise in
runs generated from the Python heap, where every reference is a live
object). -/
def nodeAt (g : List GNode) (i : Nat) : GNode :=
  g.getD i ⟨true, []⟩

mutual

/-- Fuel-indexed evaluator of `TreeElement.getInputs` on the arena: `fuel`
bounds the depth of the Python call stack, and `none` means the computation
did not finish within that depth.  The Python recursion terminates on a
node exactly when some fuel suffices. -/
def visInFuel (g : List GNode) : Nat → Nat → Option (List Nat)
  | 0, _ => none
  | fuel + 1, i => visInListFuel g fuel (nodeAt g i).inputs
termination_by fuel _ => (fuel, 0)

/-- The loop of `getInputs` over the direct inputs, fuel-indexed. -/
def visInListFuel (g : List GNode) : Nat → List Nat → Option (List Nat)
  | _, [] => some []
  | fuel, j :: rest =>
      if (nodeAt g j).isVisible then
        match visInListFuel g fuel rest with
        | some out => some (j :: out)
        | none => none
      else
        match visInFuel g fuel j, visInListFuel g fuel rest with
        | some sub, some out => some (sub ++ out)
        | _, _ => none
termination_by fuel l => (fuel, l.length + 1)

end

/-- The visibility collapse finishes on node `i` of arena `g`. -/
def CollapseTerminates (g : List GNode) (i : Nat) : Prop :=
  ∃ fuel out, visInFuel g fuel i = some out

/-- Two invisible nodes pointing at each other through their `inputs`
arrays: the smallest invisibility cycle the data model admits. -/
def cycG : List GNode := [⟨false, [1]⟩, ⟨false, [0]⟩]

/-- Visible producer node used in several concrete scenarios. -/
def nodeP : TreeElement := .mk .base "P" "P" "" true [] []

/-- Second visible producer node. -/
def nodeQ : TreeElement := .mk .base "Q" "Q" "" true [] []

/-- Third visible producer node. -/
def nodeR : TreeElement := .mk .base "R" "R" "" true [] []

/-- A registered node for the serialization scenario. -/
def c1node : TreeElement := .mk .api "SRV" "SRV" "cfg" true [] []

/-- Left operand of the equality scenario: input named P. -/
def c2left : TreeElement := .mk .base "A" "A" "" true [nodeP] []

/-- Right operand of the equality scenario: same scalars and counts, input
named Q instead of P. -/
def c2right : TreeElement := .mk .base "A" "A" "" true [nodeQ] []

/-- Registry entry already present under nickname S, carrying input P. -/
def c3old : TreeElement := .mk .api "S" "S" "cfg1" true [nodeP] []

/-- Newly constructed root server with the same nickname S and no wiring. -/
def c3new : TreeElement := .mk .api "S" "S" "cfg2" true [] []

/-- A small registry holding P under its nickname. -/
def c3reg : List (String × TreeElement) := [("P", nodeP)]

/-- A neighbor whose nickname collides with the registry entry for P. -/
def c3nbr : TreeElement := .mk .mongo "P2" "P" "" true [] []

/-- Naming scheme with two format/mutation pairs that derive the same
pattern from the key A_PKG. -/
def c4scheme : NamingScheme := mkScheme ["_PKG", "A_PKG"] ["_CONF", "A_CONF"]

/-- Environment mapping with the requested key, one correlated sibling and
one unrelated key. -/
def c4source : List (String × String) :=
  [("A_PKG", "v1"), ("A_CONF", "x"), ("OTHER", "y")]

/-- The group `matchKeys` builds for A_PKG over `c4source`. -/
def c4group : List (String × String) := [("A_PKG", "v1"), ("A_CONF", "x")]

/-- Node with nickname T and input P, for the merge scenarios. -/
def c5A : TreeElement := .mk .kafka "T" "T" "" true [nodeP] []

/-- Node with nickname T and input Q, for the merge scenarios. -/
def c5B : TreeElement := .mk .kafka "T" "T" "" true [nodeQ] []

/-- Node with inputs P, Q. -/
def c6A : TreeElement := .mk .kafka "T" "T" "" true [nodeP, nodeQ] []

/-- Node with inputs Q, R and the same nickname. -/
def c6B : TreeElement := .mk .kafka "T" "T" "" true [nodeQ, nodeR] []

/-- Invisible node whose visible inputs are P and Q. -/
def c7inv : TreeElement := .mk .base "I" "I" "" false [nodeP, nodeQ] []

/-- Consumer node whose only direct input is the invisible node. -/
def c7n : TreeElement := .mk .stream "N" "N" "" true [c7inv] []

/-- Acyclic arena: node 0 is visible with the invisible node 1 as input,
node 1 has the visible node 2 as input. -/
def c8g : List GNode := [⟨true, [1]⟩, ⟨false, [2]⟩, ⟨true, []⟩]

/-- Rank witness for `c8g`: drops along the one edge into an invisible
node. -/
def c8rank : Nat → Nat := fun n => if n = 0 then 1 else 0

theorem teEq_refl (t : TreeElement) : teEq t t = true := by
  cases t with
  | mk v n nn s vis ins outs =>
      simp [teEq, isinstOf, pySortRet, TreeElement.variant, TreeElement.name,
        TreeElement.source, TreeElement.isVisible, TreeElement.inputs,
        TreeElement.outputs]

theorem mergeList_nil (cur : List TreeElement) : mergeList cur [] = cur := rfl

theorem mergeList_cons (cur : List TreeElement) (e : TreeElement)
    (rest : List TreeElement) :
    mergeList cur (e :: rest)
      = mergeList (if pyIn cur e then cur else cur ++ [e]) rest := rfl

theorem pyIn_append_left {l : List TreeElement} {x : TreeElement}
    (h : pyIn l x = true) (l2 : List TreeElement) : pyIn (l ++ l2) x = true := by
  simp only [pyIn, List.any_append, Bool.or_eq_true]
  exact Or.inl h

theorem pyIn_append_self (l : List TreeElement) (x : TreeElement) :
    pyIn (l ++ [x]) x = true := by
  simp only [pyIn, List.any_append, Bool.or_eq_true, List.any_cons,
    List.any_nil, Bool.or_false]
  exact Or.inr (teEq_refl x)

theorem mergeList_extends (new : List TreeElement) :
    ∀ cur : List TreeElement, ∃ ex, mergeList cur new = cur ++ ex := by
  induction new with
  | nil => intro cur; exact ⟨[], by simp [mergeList_nil]⟩
  | cons e rest ih =>
      intro cur
      rw [mergeList_cons]
      by_cases h : pyIn cur e = true
      · rw [if_pos h]
        exact ih cur
      · rw [if_neg h]
        rcases ih (cur ++ [e]) with ⟨ex, hex⟩
        exact ⟨e :: ex, by simpa [List.append_assoc] using hex⟩

theorem pyIn_mergeList_of_mem {e : TreeElement} {new : List TreeElement}
    (hmem : e ∈ new) : ∀ cur, pyIn (mergeList cur new) e = true := by
  induction new with
  | nil => cases hmem
  | cons f rest ih =>
      intro cur
      rw [mergeList_cons]
      rcases List.mem_cons.mp hmem with heq | htail
      · subst heq
        by_cases h : pyIn cur e = true
        · rw [if_pos h]
          rcases mergeList_extends rest cur with ⟨ex, hex⟩
          rw [hex]
          exact pyIn_append_left h ex
        · rw [if_neg h]
          rcases mergeList_extends rest (cur ++ [e]) with ⟨ex, hex⟩
          rw [hex]
          exact pyIn_append_left (pyIn_append_self cur e) ex
      · by_cases hf : pyIn cur f = true
        · rw [if_pos hf]; exact ih htail cur
        · rw [if_neg hf]; exact ih htail (cur ++ [f])

theorem mergeList_absorb {new : List TreeElement} :
    ∀ {cur : List TreeElement}, (∀ e ∈ new, pyIn cur e = true) →
      mergeList cur new = cur := by
  induction new with
  | nil => intro cur _; simp [mergeList_nil]
  | cons f rest ih =>
      intro cur hall
      rw [mergeList_cons, if_pos (hall f (List.mem_cons_self f rest))]
      exact ih (fun e he => hall e (List.mem_cons_of_mem f he))

theorem mergeList_mergeList (cur new : List TreeElement) :
    mergeList (mergeList cur new) new = mergeList cur new :=
  mergeList_absorb (fun e he => pyIn_mergeList_of_mem he cur)

/-- Repeating `merge` with the same argument changes nothing: this is the
value-level core of merge idempotence. -/
theorem merge_merge_eq (A B : TreeElement) :
    (A.merge B).merge B = A.merge B := by
  cases A with
  | mk v n nn s vis ins outs =>
      simp only [TreeElement.merge, TreeElement.inputs, TreeElement.outputs,
        mergeList_mergeList]

theorem getInputs_eq (t : TreeElement) : getInputs t = visibleOfList t.inputs := by
  cases t; rfl

theorem visibleOfList_nil : visibleOfList [] = [] := rfl

theorem visibleOfList_cons (i : TreeElement) (rest : List TreeElement) :
    visibleOfList (i :: rest)
      = (if i.isVisible then [i] else getInputs i) ++ visibleOfList rest := rfl

theorem mem_visibleOfList {x : TreeElement} {l : List TreeElement} :
    x ∈ visibleOfList l
      ↔ ∃ i ∈ l, (i.isVisible = true ∧ x = i) ∨ (i.isVisible = false ∧ x ∈ getInputs i) := by
  induction l with
  | nil => simp [visibleOfList_nil]
  | cons i rest ih =>
      rw [visibleOfList_cons]
      by_cases hv : i.isVisible = true
      · simp only [hv, if_true, List.mem_append, List.mem_singleton, ih]
        constructor
        · rintro (hx | ⟨j, hj, hcase⟩)
          · exact ⟨i, List.mem_cons_self i rest, Or.inl ⟨hv, hx⟩⟩
          · exact ⟨j, List.mem_cons_of_mem i hj, hcase⟩
        · rintro ⟨j, hj, hcase⟩
          rcases List.mem_cons.mp hj with heq | htail
          · subst heq
            rcases hcase with ⟨_, hx⟩ | ⟨hinv, _⟩
            · exact Or.inl hx
            · rw [hv] at hinv; cases hinv
          · exact Or.inr ⟨j, htail, hcase⟩
      · have hinv : i.isVisible = false := by
          cases h : i.isVisible
          · rfl
          · exact absurd h hv
        simp only [hinv, Bool.false_eq_true, if_false, List.mem_append, ih]
        constructor
        · rintro (hx | ⟨j, hj, hcase⟩)
          · exact ⟨i, List.mem_cons_self i rest, Or.inr ⟨hinv, hx⟩⟩
          · exact ⟨j, List.mem_cons_of_mem i hj, hcase⟩
        · rintro ⟨j, hj, hcase⟩
          rcases List.mem_cons.mp hj with heq | htail
          · subst heq
            rcases hcase with ⟨hvis, _⟩ | ⟨_, hx⟩
            · rw [hvis] at hinv; cases hinv
            · exact Or.inl hx
          · exact Or.inr ⟨j, htail, hcase⟩

theorem sizeOf_lt_of_mem_inputs {i t : TreeElement} (h : i ∈ t.inputs) :
    sizeOf i < sizeOf t := by
  cases t with
  | mk v n nn s vis ins outs =>
      have hlt : sizeOf i < sizeOf ins := List.sizeOf_lt_of_mem h
      simp only [TreeElement.mk.sizeOf_spec]
      omega

/-- Every element of the visible-input list is itself visible. -/
theorem getInputs_all_visible :
    ∀ (t : TreeElement), ∀ x ∈ getInputs t, x.isVisible = true := by
  have key : ∀ (fuel : Nat) (t : TreeElement), sizeOf t ≤ fuel →
      ∀ x ∈ getInputs t, x.isVisible = true := by
    intro fuel
    induction fuel with
    | zero =>
        intro t ht
        have : 0 < sizeOf t := by
          cases t; simp only [TreeElement.mk.sizeOf_spec]; omega
        omega
    | succ fuel ih =>
        intro t ht x hx
        rw [getInputs_eq] at hx
        rcases mem_visibleOfList.mp hx with ⟨j, hj, hcase⟩
        rcases hcase with ⟨hvis, hxj⟩ | ⟨_, hxj⟩
        · rw [hxj]; exact hvis
        · have hlt : sizeOf j < sizeOf t := sizeOf_lt_of_mem_inputs hj
          exact ih j (by omega) x hxj
  intro t
  exact key (sizeOf t) t (Nat.le_refl _)

theorem mem_getInputs_of_visible_mem {v t : TreeElement}
    (hmem : v ∈ t.inputs) (hvis : v.isVisible = true) : v ∈ getInputs t := by
  rw [getInputs_eq]
  exact mem_visibleOfList.mpr ⟨v, hmem, Or.inl ⟨hvis, rfl⟩⟩

theorem mem_getInputs_of_invisible_mem {inv t x : TreeElement}
    (hmem : inv ∈ t.inputs) (hinv : inv.isVisible = false)
    (hx : x ∈ getInputs inv) : x ∈ getInputs t := by
  rw [getInputs_eq]
  exact mem_visibleOfList.mpr ⟨inv, hmem, Or.inr ⟨hinv, hx⟩⟩

theorem dictGet?_dictSet_self {α : Type} (d : List (String × α)) (k : String) (v : α) :
    dictGet? (dictSet d k v) k = some v := by
  induction d with
  | nil => simp [dictSet, dictGet?]
  | cons p d ih =>
      by_cases hp : p.1 == k
      · have hany : (p :: d).any (fun q => q.1 == k) = true := by
          simp [List.any_cons, hp]
        simp only [dictSet, hany, if_true, List.map_cons, hp, if_pos]
        simp [dictGet?, List.find?]
      · have hstep : dictSet (p :: d) k v = p :: dictSet d k v := by
          simp only [dictSet, List.any_cons, hp, Bool.false_or, List.map_cons]
          by_cases hd : d.any (fun q => q.1 == k) = true
          · simp [hd, hp]
          · simp [hd, hp]
        rw [hstep]
        simp only [dictGet?, List.find?, hp]
        exact ih

theorem dictSet_keys_nodup {α : Type} {d : List (String × α)}
    (h : (d.map Prod.fst).Nodup) (k : String) (v : α) :
    ((dictSet d k v).map Prod.fst).Nodup := by
  by_cases hmem : d.any (fun p => p.1 == k) = true
  · have hmap : (dictSet d k v).map Prod.fst = d.map Prod.fst := by
      simp only [dictSet, hmem, if_true, List.map_map]
      apply List.map_congr_left
      intro p _
      by_cases hp : p.1 == k
      · have : p.1 = k := by simpa using hp
        simp [Function.comp, hp, this]
      · simp [Function.comp, hp]
    rw [hmap]; exact h
  · have hnomem : k ∉ d.map Prod.fst := by
      intro hk
      rcases List.mem_map.mp hk with ⟨p, hp, hpk⟩
      have : d.any (fun q => q.1 == k) = true :=
        List.any_eq_true.mpr ⟨p, hp, by simp [hpk]⟩
      exact hmem this
    simp only [dictSet, hmem, if_false, List.map_append, List.map_cons, List.map_nil]
    have hnopair : ∀ x : α, (k, x) ∉ d := by
      intro x hx
      exact hnomem (List.mem_map.mpr ⟨(k, x), hx, rfl⟩)
    simpa [List.nodup_append] using ⟨h, hnopair⟩

theorem matchGroup_inner_nodup (source : List (String × String))
    (grp : List (String × String)) (mutKey : String)
    (h : (grp.map Prod.fst).Nodup) :
    ((source.foldl
        (fun grp2 p => if reSearchLit mutKey p.1 then dictSet grp2 p.1 p.2 else grp2)
        grp).map Prod.fst).Nodup := by
  induction source generalizing grp with
  | nil => exact h
  | cons p rest ih =>
      simp only [List.foldl_cons]
      by_cases hs : reSearchLit mutKey p.1 = true
      · rw [if_pos hs]; exact ih _ (dictSet_keys_nodup h p.1 p.2)
      · rw [if_neg hs]; exact ih _ h

/-- The keys of every group built by `matchGroup` are pairwise distinct:
the group is a dict, so a sibling matched by several format/mutation pairs
still occupies a single entry. -/
theorem matchGroup_fold_nodup (sch : NamingScheme)
    (source : List (String × String)) :
    ∀ (formats : List String) (grp : List (String × String)),
      (grp.map Prod.fst).Nodup →
      ((formats.foldl
          (fun grp f =>
            let mutKey := reSubLit f ((dictGet? sch.mutations f).getD "") key
            source.foldl
              (fun grp2 p =>
                if reSearchLit mutKey p.1 then dictSet grp2 p.1 p.2 else grp2)
              grp)
          grp).map Prod.fst).Nodup := by
  intro formats
  induction formats with
  | nil => intro grp h; exact h
  | cons f rest ih =>
      intro grp h
      simp only [List.foldl_cons]
      exact ih _ (matchGroup_inner_nodup source grp _ h)

/-- The keys of every group built by `matchGroup` are pairwise distinct:
the group is a dict, so a sibling matched by several format/mutation pairs
still occupies a single entry. -/
theorem matchGroup_keys_nodup (sch : NamingScheme)
    (source : List (String × String)) (key : String) :
    ((sch.matchGroup source key).map Prod.fst).Nodup := by
  unfold NamingScheme.matchGroup
  exact matchGroup_fold_nodup sch source sch.formats _ (by simp)

theorem visInFuel_zero (g : List GNode) (i : Nat) : visInFuel g 0 i = none := by
  simp [visInFuel]

theorem visInFuel_succ (g : List GNode) (fuel i : Nat) :
    visInFuel g (fuel + 1) i = visInListFuel g fuel (nodeAt g i).inputs := by
  simp [visInFuel]

theorem visInListFuel_nil (g : List GNode) (fuel : Nat) :
    visInListFuel g fuel [] = some [] := by
  simp [visInListFuel]

theorem visInListFuel_cons_vis (g : List GNode) (fuel j : Nat) (rest : List Nat)
    (hv : (nodeAt g j).isVisible = true) :
    visInListFuel g fuel (j :: rest)
      = (visInListFuel g fuel rest).map (fun out => j :: out) := by
  cases h : visInListFuel g fuel rest <;> simp [visInListFuel, hv, h]

theorem visInListFuel_cons_invis_none (g : List GNode) (fuel j : Nat)
    (rest : List Nat) (hv : (nodeAt g j).isVisible = false)
    (hn : visInFuel g fuel j = none) :
    visInListFuel g fuel (j :: rest) = none := by
  cases h : visInListFuel g fuel rest <;> simp [visInListFuel, hv, hn, h]

theorem visInListFuel_cons_invis_some (g : List GNode) (fuel j : Nat)
    (rest sub out : List Nat) (hv : (nodeAt g j).isVisible = false)
    (hs : visInFuel g fuel j = some sub)
    (ho : visInListFuel g fuel rest = some out) :
    visInListFuel g fuel (j :: rest) = some (sub ++ out) := by
  simp [visInListFuel, hv, hs, ho]

/-- On the two-node invisibility cycle, `getInputs` exhausts every finite
call-stack budget: the recursion never returns. -/
theorem cycG_no_fuel_enough :
    ∀ fuel, visInFuel cycG fuel 0 = none ∧ visInFuel cycG fuel 1 = none := by
  intro fuel
  induction fuel with
  | zero => exact ⟨visInFuel_zero cycG 0, visInFuel_zero cycG 1⟩
  | succ fuel ih =>
      constructor
      · rw [visInFuel_succ]
        have hin : (nodeAt cycG 0).inputs = [1] := rfl
        rw [hin]
        exact visInListFuel_cons_invis_none cycG fuel 1 [] rfl ih.2
      · rw [visInFuel_succ]
        have hin : (nodeAt cycG 1).inputs = [0] := rfl
        rw [hin]
        exact visInListFuel_cons_invis_none cycG fuel 0 [] rfl ih.1

/-- Joint fuel-adequacy statement: with a rank `μ` that strictly drops
along every edge into an invisible node, fuel exceeding `μ i` makes the
collapse of node `i` return. -/
theorem visInFuel_rank_isSome (g : List GNode) (μ : Nat → Nat)
    (hclosed : ∀ j, j < g.length → ∀ k ∈ (nodeAt g j).inputs, k < g.length)
    (hrank : ∀ j, j < g.length → ∀ k ∈ (nodeAt g j).inputs,
        (nodeAt g k).isVisible = false → μ k < μ j) :
    ∀ fuel,
      (∀ i, i < g.length → μ i < fuel → (visInFuel g fuel i).isSome = true) ∧
      (∀ l, (∀ j ∈ l, j < g.length ∧ ((nodeAt g j).isVisible = false → μ j < fuel)) →
        (visInListFuel g fuel l).isSome = true) := by
  intro fuel
  induction fuel with
  | zero =>
      constructor
      · intro i _ hμ
        exact absurd hμ (Nat.not_lt_zero (μ i))
      · intro l hl
        induction l with
        | nil => simp [visInListFuel_nil]
        | cons j rest ihl =>
            have hj := hl j (List.mem_cons_self j rest)
            have hvis : (nodeAt g j).isVisible = true := by
              cases h : (nodeAt g j).isVisible
              · exact absurd (hj.2 h) (Nat.not_lt_zero (μ j))
              · rfl
            rw [visInListFuel_cons_vis g 0 j rest hvis]
            have hrest := ihl (fun k hk => hl k (List.mem_cons_of_mem j hk))
            cases h : visInListFuel g 0 rest
            · rw [h] at hrest; cases hrest
            · simp [h]
  | succ fuel ih =>
      have hnode : ∀ i, i < g.length → μ i < fuel + 1 →
          (visInFuel g (fuel + 1) i).isSome = true := by
        intro i hi hμ
        rw [visInFuel_succ]
        apply ih.2
        intro j hj
        refine ⟨hclosed i hi j hj, fun hinv => ?_⟩
        have := hrank i hi j hj hinv
        omega
      refine ⟨hnode, ?_⟩
      intro l hl
      induction l with
      | nil => simp [visInListFuel_nil]
      | cons j rest ihl =>
          have hj := hl j (List.mem_cons_self j rest)
          have hrest := ihl (fun k hk => hl k (List.mem_cons_of_mem j hk))
          cases hvis : (nodeAt g j).isVisible
          · have hsub := hnode j hj.1 (hj.2 hvis)
            rcases Option.isSome_iff_exists.mp hsub with ⟨sub, hs⟩
            rcases Option.isSome_iff_exists.mp hrest with ⟨out, ho⟩
            rw [visInListFuel_cons_invis_some g (fuel + 1) j rest sub out hvis hs ho]
            rfl
          · rw [visInListFuel_cons_vis g (fuel + 1) j rest hvis]
            rcases Option.isSome_iff_exists.mp hrest with ⟨out, ho⟩
            simp [ho]

theorem merge_inputs (A B : TreeElement) :
    (A.merge B).inputs = mergeList A.inputs B.inputs := by
  cases A; rfl

theorem merge_outputs (A B : TreeElement) :
    (A.merge B).outputs = mergeList A.outputs B.outputs := by
  cases A; rfl

/-- C1: the architecture snapshot is claimed to map every registered node's
nickname to an object carrying at least its name, nickname, visibility and
neighbor lists; the embedded encoder instead returns the value of
`print(obj)`, which is `None`, so every node serializes as JSON `null`.
This theorem evaluates the serialization of a one-node registry at the
failing input. -/
theorem c1_snapshot_serializes_null :
    customJSONEncoderDefaultTE c1node = Json.null ∧
    jsonDumpNodes [("SRV", c1node)] = Json.obj [("SRV", Json.null)] :=
  ⟨rfl, rfl⟩

/-- C2: node equality is claimed to compare the sets of neighbor names, so
two same-variant nodes with equal scalars and counts but different neighbor
names should be unequal; because `list.sort()` returns `None`, the embedded
`__eq__` compares `None == None` and returns `True` on exactly such a pair. -/
theorem c2_eq_ignores_neighbor_names :
    teEq c2left c2right = true ∧
    c2left.inputs.map TreeElement.name ≠ c2right.inputs.map TreeElement.name := by
  exact ⟨rfl, by decide⟩

/-- C3 counterexample: registering a root server whose nickname is already
present replaces the existing entry with the new node instead of merging
into it — the resulting entry is the fresh node, which is not equal (under
the program's own equality) to the merge the claim requires. -/
theorem c3_root_overwrite_counterexample :
    dictGet? (registerServer [("S", c3old)] c3new) "S" = some c3new ∧
    teEq c3new (c3old.merge c3new) = false :=
  ⟨rfl, rfl⟩

/-- C3 as amended: merge-on-insert holds for the wired inputs and outputs
registered through the neighbor loop, while the root server node itself is
written into the registry unconditionally, replacing any entry that shares
its nickname. -/
theorem c3_registration_amended :
    (∀ (nodes : List (String × TreeElement)) (s : TreeElement),
        getInputs s = [] → getOutputs s = [] →
        dictGet? (registerServer nodes s) s.nickname = some s) ∧
    (∀ (nodes : List (String × TreeElement)) (n ex : TreeElement),
        dictGet? nodes n.nickname = some ex →
        dictGet? (registerNeighbor nodes n) n.nickname = some (ex.merge n)) := by
  constructor
  · intro nodes s h1 h2
    unfold registerServer
    rw [h1, h2]
    simp only [List.append_nil, List.foldl_nil]
    exact dictGet?_dictSet_self nodes s.nickname s
  · intro nodes n ex h
    unfold registerNeighbor
    rw [h]
    exact dictGet?_dictSet_self nodes n.nickname (ex.merge n)

/-- C3 witness: the amended statement applied to a concrete wiring-free
root and to a concrete occupied registry slot. -/
theorem c3_registration_amended_witness :
    (getInputs c3new = [] ∧ getOutputs c3new = [] ∧
      dictGet? c3reg c3nbr.nickname = some nodeP) ∧
    (dictGet? (registerServer [] c3new) c3new.nickname = some c3new ∧
      dictGet? (registerNeighbor c3reg c3nbr) c3nbr.nickname = some (nodeP.merge c3nbr)) :=
  ⟨⟨rfl, rfl, rfl⟩,
    c3_registration_amended.1 [] c3new rfl rfl,
    c3_registration_amended.2 c3reg c3nbr nodeP rfl⟩

/-- C4 counterexample: the two configured format/mutation pairs of
`c4scheme` both derive the pattern A_CONF from the requested key A_PKG, yet
the sibling A_CONF appears exactly once in the returned group — the group
is a dict, so the second match overwrites the first instead of appearing
twice as claimed. -/
theorem c4_no_duplicate_counterexample :
    c4scheme.matchKeys c4source ["A_PKG"] = [c4group] ∧
    c4group.countP (fun p => p.1 == "A_CONF") = 1 := by
  exact ⟨rfl, rfl⟩

/-- C4 as amended: matches contributed by different format/mutation pairs
are accumulated into a per-key mapping keyed by the sibling key, so a
sibling matched by several pairs occupies exactly one entry of the group:
the keys of every returned group are pairwise distinct. -/
theorem c4_group_keys_nodup :
    ∀ (sch : NamingScheme) (source : List (String × String)) (keys : List String),
      ∀ g ∈ sch.matchKeys source keys, (g.map Prod.fst).Nodup := by
  intro sch source keys g hg
  rcases List.mem_map.mp hg with ⟨k, _, hk⟩
  rw [← hk]
  exact matchGroup_keys_nodup sch source k

/-- C4 witness: the amended statement applied to the concrete
double-matching scheme. -/
theorem c4_group_keys_nodup_witness :
    c4group ∈ c4scheme.matchKeys c4source ["A_PKG"] ∧
    (c4group.map Prod.fst).Nodup := by
  have hmem : c4group ∈ c4scheme.matchKeys c4source ["A_PKG"] := by
    rw [show c4scheme.matchKeys c4source ["A_PKG"] = [c4group] from rfl]
    exact List.mem_singleton.mpr rfl
  exact ⟨hmem, c4_group_keys_nodup c4scheme c4source ["A_PKG"] c4group hmem⟩

/-- C5: merge is idempotent for nodes sharing a nickname — repeating the
same merge leaves the inputs and outputs unchanged and the results equal
under the program's equality. -/
theorem c5_merge_idempotent (A B : TreeElement) (h : A.nickname = B.nickname) :
    teEq ((A.merge B).merge B) (A.merge B) = true ∧
    ((A.merge B).merge B).inputs = (A.merge B).inputs ∧
    ((A.merge B).merge B).outputs = (A.merge B).outputs := by
  rw [merge_merge_eq]
  exact ⟨teEq_refl _, rfl, rfl⟩

/-- C5 witness: idempotence at two concrete same-nickname nodes. -/
theorem c5_merge_idempotent_witness :
    c5A.nickname = c5B.nickname ∧
    (teEq ((c5A.merge c5B).merge c5B) (c5A.merge c5B) = true ∧
      ((c5A.merge c5B).merge c5B).inputs = (c5A.merge c5B).inputs ∧
      ((c5A.merge c5B).merge c5B).outputs = (c5A.merge c5B).outputs) :=
  ⟨rfl, c5_merge_idempotent c5A c5B rfl⟩

/-- C6: when A has inputs x, y and B has inputs y, z with x, y, z pairwise
distinct under the program's node equality, the merged inputs are exactly
x, y, z in order of first appearance; moreover merge never removes an
existing reference — the original lists stay in place as the front of the
merged lists. -/
theorem c6_merge_union_order (A B x y z : TreeElement)
    (hA : A.inputs = [x, y]) (hB : B.inputs = [y, z])
    (hxy : teEq x y = false) (hxz : teEq x z = false) (hyz : teEq y z = false) :
    (A.merge B).inputs = [x, y, z] ∧
    (∀ C D : TreeElement,
      (C.merge D).inputs.take C.inputs.length = C.inputs ∧
      (C.merge D).outputs.take C.outputs.length = C.outputs) := by
  constructor
  · rw [merge_inputs, hA, hB]
    have h1 : pyIn [x, y] y = true := by
      simp [pyIn, teEq_refl]
    rw [mergeList_cons, if_pos h1]
    have h2 : ¬ pyIn [x, y] z = true := by
      simp [pyIn, hxz, hyz]
    rw [mergeList_cons, if_neg h2, mergeList_nil]
    rfl
  · intro C D
    constructor
    · rcases mergeList_extends D.inputs C.inputs with ⟨ex, hex⟩
      rw [merge_inputs, hex, List.take_left]
    · rcases mergeList_extends D.outputs C.outputs with ⟨ex, hex⟩
      rw [merge_outputs, hex, List.take_left]

/-- C6 witness: the union at concrete nodes with inputs P, Q and Q, R. -/
theorem c6_merge_union_order_witness :
    (c6A.inputs = [nodeP, nodeQ] ∧ c6B.inputs = [nodeQ, nodeR] ∧
      teEq nodeP nodeQ = false ∧ teEq nodeP nodeR = false ∧
      teEq nodeQ nodeR = false) ∧
    ((c6A.merge c6B).inputs = [nodeP, nodeQ, nodeR] ∧
      (∀ C D : TreeElement,
        (C.merge D).inputs.take C.inputs.length = C.inputs ∧
        (C.merge D).outputs.take C.outputs.length = C.outputs)) :=
  ⟨⟨rfl, rfl, rfl, rfl, rfl⟩,
    c6_merge_union_order c6A c6B nodeP nodeQ nodeR rfl rfl rfl rfl rfl⟩

/-- C7: for a node whose inputs include an invisible node with visible
inputs p and q, the visible-input list contains p and q directly, never
contains the invisible node, and returns visible direct inputs unchanged. -/
theorem c7_visibility_collapse (n inv p q : TreeElement)
    (hmem : inv ∈ n.inputs) (hinv : inv.isVisible = false)
    (hins : inv.inputs = [p, q])
    (hp : p.isVisible = true) (hq : q.isVisible = true) :
    p ∈ getInputs n ∧ q ∈ getInputs n ∧ inv ∉ getInputs n ∧
    (∀ v ∈ n.inputs, v.isVisible = true → v ∈ getInputs n) := by
  have hginv : getInputs inv = [p, q] := by
    rw [getInputs_eq, hins, visibleOfList_cons, visibleOfList_cons,
      visibleOfList_nil, if_pos hp, if_pos hq]
    rfl
  refine ⟨?_, ?_, ?_, ?_⟩
  · exact mem_getInputs_of_invisible_mem hmem hinv
      (by rw [hginv]; exact List.mem_cons_self p [q])
  · exact mem_getInputs_of_invisible_mem hmem hinv
      (by rw [hginv]; exact List.mem_cons_of_mem p (List.mem_singleton.mpr rfl))
  · intro hcon
    have hvis := getInputs_all_visible n inv hcon
    rw [hinv] at hvis
    cases hvis
  · intro v hv hvis
    exact mem_getInputs_of_visible_mem hv hvis

/-- C7 witness: the collapse at a concrete consumer referencing a concrete
invisible node with visible inputs P and Q. -/
theorem c7_visibility_collapse_witness :
    (c7inv ∈ c7n.inputs ∧ c7inv.isVisible = false ∧
      c7inv.inputs = [nodeP, nodeQ] ∧ nodeP.isVisible = true ∧
      nodeQ.isVisible = true) ∧
    (nodeP ∈ getInputs c7n ∧ nodeQ ∈ getInputs c7n ∧ c7inv ∉ getInputs c7n ∧
      (∀ v ∈ c7n.inputs, v.isVisible = true → v ∈ getInputs c7n)) :=
  ⟨⟨List.mem_singleton.mpr rfl, rfl, rfl, rfl, rfl⟩,
    c7_visibility_collapse c7n c7inv nodeP nodeQ
      (List.mem_singleton.mpr rfl) rfl rfl rfl rfl⟩

/-- C8 counterexample: on the two-node cycle of invisible back-references
the visibility collapse never returns — no call-stack budget suffices — so
the operations are not total on every graph the data model permits and no
defensive guard exists in the implementation. -/
theorem c8_cycle_diverges : ¬ CollapseTerminates cycG 0 := by
  rintro ⟨fuel, out, h⟩
  rw [(cycG_no_fuel_enough fuel).1] at h
  cases h

/-- C8 as amended: the collapse terminates on every node of a graph whose
invisible chains are well-founded, witnessed by a rank that strictly drops
along each edge into an invisible node; the implementation itself contains
no cycle guard, and on an invisibility cycle it does not terminate. -/
theorem c8_rank_termination (g : List GNode) (μ : Nat → Nat) (i : Nat)
    (hclosed : ∀ j, j < g.length → ∀ k ∈ (nodeAt g j).inputs, k < g.length)
    (hrank : ∀ j, j < g.length → ∀ k ∈ (nodeAt g j).inputs,
        (nodeAt g k).isVisible = false → μ k < μ j)
    (hi : i < g.length) :
    CollapseTerminates g i := by
  have h := (visInFuel_rank_isSome g μ hclosed hrank (μ i + 1)).1 i hi
    (Nat.lt_succ_self (μ i))
  rcases Option.isSome_iff_exists.mp h with ⟨out, ho⟩
  exact ⟨μ i + 1, out, ho⟩

/-- C8 witness: termination on a concrete acyclic arena containing an
invisible node, with a concrete rank function. -/
theorem c8_rank_termination_witness :
    ((∀ j, j < c8g.length → ∀ k ∈ (nodeAt c8g j).inputs, k < c8g.length) ∧
      (∀ j, j < c8g.length → ∀ k ∈ (nodeAt c8g j).inputs,
        (nodeAt c8g k).isVisible = false → c8rank k < c8rank j) ∧
      0 < c8g.length) ∧
    CollapseTerminates c8g 0 :=
  ⟨⟨by decide, by decide, by decide⟩,
    c8_rank_termination c8g c8rank 0 (by decide) (by decide) (by decide)⟩

/-- C9: for a correlated value that does end in the version token, the
search succeeds and the match is the token, but the extraction step calls
`group(1)` on a pattern with no capture groups and raises `IndexError`
instead of returning the token; a value without the token raises
`AttributeError` on the `None` returned by the failed search. -/
theorem c9_buildnum_always_errors :
    searchVEnd "example-v3" = some ⟨"v3", []⟩ ∧
    buildNumOfValue "example-v3" = Except.error PyErr.indexError ∧
    buildNumOfValue "example" = Except.error PyErr.attributeError :=
  ⟨rfl, rfl, rfl⟩

/-- C10: node equality is asymmetric across variants — a base node compares
equal to a subclass node with the same scalars and counts, while the
subclass node compares unequal to the base node, because the variant check
only asks whether the right operand is an instance of the left operand's
class. -/
theorem c10_eq_asymmetric_across_variants :
    ∃ t s : TreeElement, t.variant = Variant.base ∧ s.variant ≠ Variant.base ∧
      t.name = s.name ∧ t.source = s.source ∧ t.isVisible = s.isVisible ∧
      t.inputs.length = s.inputs.length ∧ t.outputs.length = s.outputs.length ∧
      teEq t s = true ∧ teEq s t = false :=
  ⟨.mk .base "E" "E" "" true [] [], .mk .kafka "E" "E" "" true [] [],
    rfl, by decide, rfl, rfl, rfl, rfl, rfl, rfl, rfl⟩

end ServerMap

